import Mathlib

/-!
Verification of the text-frequency pipeline in `src/main.go`.

The program scans an input file line by line, extracts four token streams
with regular expressions (Chinese characters `[\p{Han}]`, Chinese words
`[\p{Han}]+`, English words of the word pattern, English
phrases of the phrase pattern), accumulates per-category
frequency maps and duplicated lists, ranks two of the maps by descending
count with `sortByFrequency`, and writes four output files with
`writeToFile`.

Strings are embedded as `List Char`.  The Go `FindAllString` is embedded as a
left-to-right scan producing successive leftmost non-overlapping matches,
with per-pattern leftmost-first (Perl-style greedy backtracking)
semantics implemented directly; `\b`, `\w` and `\s` use the Go RE2 ASCII
definitions.  Go maps are embedded as association lists in first-insertion
order; the unspecified iteration order a Go map hands to `sortByFrequency`
is made explicit as the enumeration argument of that function.
-/

/-- The apostrophe code point U+0027, written via `Char.ofNat`. -/
def apostropheChar : Char := Char.ofNat 39

/-- ASCII alphanumeric: the class `[a-zA-Z0-9]` used by the English
patterns. -/
def isAlnumChar (c : Char) : Bool :=
  (Char.ofNat 48 ≤ c && c ≤ Char.ofNat 57) ||
  (Char.ofNat 97 ≤ c && c ≤ Char.ofNat 122) ||
  (Char.ofNat 65 ≤ c && c ≤ Char.ofNat 90)

/-- RE2 `\w` (word character for `\b` boundaries): `[0-9A-Za-z_]`. -/
def isWordChar (c : Char) : Bool :=
  isAlnumChar c || c == '_'

/-- The character class (ASCII alphanumeric or apostrophe) of the
English-word pattern. -/
def isEngWordChar (c : Char) : Bool :=
  isAlnumChar c || c == apostropheChar

/-- RE2 `\s`: the ASCII whitespace class `[\t\n\f\r ]`. -/
def isSpaceRe2 (c : Char) : Bool :=
  c == ' ' || c == Char.ofNat 9 || c == Char.ofNat 10 ||
  c == Char.ofNat 12 || c == Char.ofNat 13

/-- The middle class (word, space, apostrophe or hyphen characters) of the
English-phrase pattern. -/
def isPhraseMidChar (c : Char) : Bool :=
  isWordChar c || isSpaceRe2 c || c == apostropheChar || c == '-'

/-- Whitespace as recognised by the Go function `unicode.IsSpace`, used by
`strings.TrimSpace`: ASCII `\t\n\v\f\r` and space, plus the Latin-1 and
Unicode space code points. -/
def isGoSpace (c : Char) : Bool :=
  c == ' ' || c == Char.ofNat 9 || c == Char.ofNat 10 ||
  c == Char.ofNat 11 || c == Char.ofNat 12 || c == Char.ofNat 13 ||
  c == Char.ofNat 0x85 || c == Char.ofNat 0xA0 ||
  c == Char.ofNat 0x1680 ||
  c == Char.ofNat 0x2000 || c == Char.ofNat 0x2001 ||
  c == Char.ofNat 0x2002 || c == Char.ofNat 0x2003 ||
  c == Char.ofNat 0x2004 || c == Char.ofNat 0x2005 ||
  c == Char.ofNat 0x2006 || c == Char.ofNat 0x2007 ||
  c == Char.ofNat 0x2008 || c == Char.ofNat 0x2009 ||
  c == Char.ofNat 0x200A || c == Char.ofNat 0x2028 ||
  c == Char.ofNat 0x2029 || c == Char.ofNat 0x202F ||
  c == Char.ofNat 0x205F || c == Char.ofNat 0x3000

/-- Membership in the Unicode Han script (`\p{Han}`), modelled over the
principal CJK ideograph blocks and the Han-script marks of the CJK
Symbols block. -/
def isHanChar (c : Char) : Bool :=
  (0x4E00 ≤ c.toNat && c.toNat ≤ 0x9FFF) ||
  (0x3400 ≤ c.toNat && c.toNat ≤ 0x4DBF) ||
  (0xF900 ≤ c.toNat && c.toNat ≤ 0xFAD9) ||
  (0x20000 ≤ c.toNat && c.toNat ≤ 0x2A6DF) ||
  (0x2A700 ≤ c.toNat && c.toNat ≤ 0x2EBEF) ||
  (0x2F800 ≤ c.toNat && c.toNat ≤ 0x2FA1D) ||
  (0x30000 ≤ c.toNat && c.toNat ≤ 0x323AF) ||
  c.toNat == 0x3005 || c.toNat == 0x3007 ||
  (0x3021 ≤ c.toNat && c.toNat ≤ 0x3029) ||
  (0x3038 ≤ c.toNat && c.toNat ≤ 0x303B)

/-- The Go function `strings.ToLower`, restricted to the simple case folding
that the ASCII/Han tokens of this program exercise (`Char.toLower` lower-cases `A`-`Z`
and is the identity elsewhere, as Unicode `ToLower` is on Han text). -/
def toLowerStr (s : List Char) : List Char :=
  s.map Char.toLower

/-- The Go function `strings.TrimSpace`: drop `unicode.IsSpace` characters from both
ends. -/
def trimSpace (s : List Char) : List Char :=
  ((s.dropWhile isGoSpace).reverse.dropWhile isGoSpace).reverse

/-- Length of the longest prefix whose characters all satisfy `p` (a
greedy character-class run, as matched by `+` or `*` on a class). -/
def runLen (p : Char → Bool) : List Char → Nat
  | [] => 0
  | c :: rest => if p c then runLen p rest + 1 else 0

/-- Backtracking combinator: try `f n`, `f (n-1)`, ..., `f 0` and return
the first success.  This is exactly the order in which a greedy quantifier
surrenders characters during leftmost-first matching. -/
def tryFrom (f : Nat → Option Nat) : Nat → Option Nat
  | 0 => f 0
  | k + 1 =>
    match f (k + 1) with
    | some r => some r
    | none => tryFrom f k

/-- Whether an optional character (`none` at a string edge) is an RE2 word
character. -/
def wordOpt : Option Char → Bool
  | none => false
  | some c => isWordChar c

/-- RE2 `\b`: a word boundary lies between two (optional) characters
exactly when one side is a word character and the other is not. -/
def wordBoundary (a b : Option Char) : Bool :=
  wordOpt a != wordOpt b

/-- One match attempt of `chineseCharacterRegex` = `[\p{Han}]` at the head
of `l`: a single Han character. -/
def matchChineseChar (_prev : Option Char) (l : List Char) : Option Nat :=
  match l with
  | [] => none
  | c :: _ => if isHanChar c then some 1 else none

/-- One match attempt of `chineseWordsRegex` = `[\p{Han}]+` at the head of
`l`: the maximal run of Han characters. -/
def matchChineseWord (_prev : Option Char) (l : List Char) : Option Nat :=
  match l with
  | [] => none
  | c :: rest => if isHanChar c then some (runLen isHanChar rest + 1) else none

/-- One match attempt of `englishWordRegex` =
(word boundary, an alphanumeric-or-apostrophe run, an optional hyphen
plus second run, word boundary) at the head of `l`, given the
character `prev` immediately before `l` (`none` at the string edge).
Returns the match length.  The first run is greedy (lengths tried
descending), the optional hyphen group is preferred over its absence, and
its run is greedy too - Perl/RE2 leftmost-first order. -/
def matchEnglishWord (prev : Option Char) (l : List Char) : Option Nat :=
  match l with
  | [] => none
  | c0 :: _ =>
    let r1 := runLen isEngWordChar l
    if r1 = 0 then none
    else if wordOpt prev == isWordChar c0 then none
    else
      tryFrom (fun k1 =>
        if k1 = 0 then none
        else
          match l.drop k1 with
          | hy :: rest1 =>
            let withHyphen :=
              if hy = '-' then
                tryFrom (fun k2 =>
                  if k2 = 0 then none
                  else if wordBoundary ((l.drop (k1 + k2)).head?)
                      ((l.drop (k1 + 1 + k2)).head?) then
                    some (k1 + 1 + k2)
                  else none) (runLen isEngWordChar rest1)
              else none
            match withHyphen with
            | some r => some r
            | none =>
              if wordBoundary ((l.drop (k1 - 1)).head?) (some hy) then some k1
              else none
          | [] =>
            if wordBoundary ((l.drop (k1 - 1)).head?) none then some k1
            else none) r1

/-- One match attempt of `englishPhrasesRegex` =
(word boundary, alphanumeric, greedy middle-class run, alphanumeric, word
boundary) at the head of `l`, given the
preceding character `prev`.  The middle class run is greedy with
backtracking; the final character must be alphanumeric and lie at a word
boundary. -/
def matchEnglishPhrase (prev : Option Char) (l : List Char) : Option Nat :=
  match l with
  | [] => none
  | c0 :: rest =>
    if isAlnumChar c0 && !wordOpt prev then
      tryFrom (fun k =>
        match rest.drop k with
        | c2 :: rest2 =>
          if isAlnumChar c2 && !wordOpt rest2.head? then some (k + 2)
          else none
        | [] => none) (runLen isPhraseMidChar rest)
    else none

/-- Core of `FindAllString`: at each position try the matcher; on a match
of length `k` emit the matched text and resume after it (with `prev` the
last matched character), otherwise advance one character.  The patterns
never match the empty string, so one unit of fuel per input character
suffices. -/
def findAllAux (m : Option Char → List Char → Option Nat) :
    Nat → Option Char → List Char → List (List Char)
  | 0, _, _ => []
  | _ + 1, _, [] => []
  | fuel + 1, prev, c :: rest =>
    match m prev (c :: rest) with
    | some k =>
      ((c :: rest).take k) ::
        findAllAux m fuel (((c :: rest).take k).getLast?) ((c :: rest).drop k)
    | none => findAllAux m fuel (some c) rest

/-- The Go call `regexp.FindAllString(line, -1)` for the pattern whose one-position
match attempt is `m`: all successive leftmost non-overlapping matches. -/
def findAll (m : Option Char → List Char → Option Nat) (l : List Char) :
    List (List Char) :=
  findAllAux m l.length none l

/-- The four token categories of the program. -/
inductive Category where
  | chineseChar
  | chineseWord
  | englishWord
  | englishPhrase
deriving DecidableEq

/-- The normalization each category applies to a raw token before using it
as a frequency-map key, read off the four loop bodies in `main`: Chinese
tokens are used verbatim, English words pass through `strings.ToLower`,
English phrases through `strings.ToLower(strings.TrimSpace(...))`. -/
def normalizeKey (cat : Category) (raw : List Char) : List Char :=
  match cat with
  | Category.chineseChar => raw
  | Category.chineseWord => raw
  | Category.englishWord => toLowerStr raw
  | Category.englishPhrase => toLowerStr (trimSpace raw)

/-- The Go statement `freqMap[key]++` on an association-list embedding of
the map: bump the count of an existing key, or append the key with count 1. -/
def bump (key : List Char) : List (List Char × Nat) → List (List Char × Nat)
  | [] => [(key, 1)]
  | (k, v) :: rest =>
    if k = key then (k, v + 1) :: rest else (k, v) :: bump key rest

/-- Per-category accumulator: the frequency map and the duplicated list
(raw tokens in original order). -/
structure CatState where
  freq : List (List Char × Nat)
  list : List (List Char)
deriving DecidableEq

/-- The per-category loop body in `main`, applied to every token of a line in
order: increment the frequency of the normalized key and append the raw
token to the duplicated list. -/
def processCategory (norm : List Char → List Char)
    (tokens : List (List Char)) (s : CatState) : CatState :=
  tokens.foldl
    (fun st t => CatState.mk (bump (norm t) st.freq) (st.list ++ [t])) s

/-- The whole accumulation state of `main`: one `CatState` per category. -/
structure ScanState where
  chineseChar : CatState
  chineseWords : CatState
  englishWord : CatState
  englishPhrases : CatState
deriving DecidableEq

/-- The body of the `scanner.Scan()` loop in `main` for one line: run the
four regexes over the line and feed each token stream to the accumulator
of its category. -/
def processLine (st : ScanState) (line : List Char) : ScanState :=
  ScanState.mk
    (processCategory (normalizeKey Category.chineseChar)
      (findAll matchChineseChar line) st.chineseChar)
    (processCategory (normalizeKey Category.chineseWord)
      (findAll matchChineseWord line) st.chineseWords)
    (processCategory (normalizeKey Category.englishWord)
      (findAll matchEnglishWord line) st.englishWord)
    (processCategory (normalizeKey Category.englishPhrase)
      (findAll matchEnglishPhrase line) st.englishPhrases)

/-- The empty accumulation state created before the scan loop. -/
def initState : ScanState :=
  ScanState.mk (CatState.mk [] []) (CatState.mk [] [])
    (CatState.mk [] []) (CatState.mk [] [])

/-- The full scan loop of `main` over the input lines. -/
def scanLines (lines : List (List Char)) : ScanState :=
  lines.foldl processLine initState

/-- Descending-count order on map entries: the comparison
`sortedPairs[i].Value > sortedPairs[j].Value` of `sortByFrequency`, as the
non-strict total order a sort establishes. -/
def freqGe (a b : List Char × Nat) : Prop := b.2 ≤ a.2

instance : DecidableRel freqGe := fun a b => Nat.decLe b.2 a.2

/-- The `sort.Slice` call of `sortByFrequency`, modelled as a sort of the
enumerated entries by descending count.  `sort.Slice` is unstable and the
entry enumeration produced by `range freqMap` is in an unspecified order;
both are captured by making the enumeration the argument and sorting it
deterministically. -/
def sortPairsDesc (pairs : List (List Char × Nat)) : List (List Char × Nat) :=
  List.insertionSort freqGe pairs

/-- The Go function `sortByFrequency`: enumerate the map entries, sort them by
descending count, and return the keys.  `pairs` is the enumeration of the
frequency map that `range freqMap` produced. -/
def sortByFrequency (pairs : List (List Char × Nat)) : List (List Char) :=
  (sortPairsDesc pairs).map Prod.fst

/-- The count a frequency-map enumeration assigns to a key (0 if absent). -/
def lookupCount (pairs : List (List Char × Nat)) (k : List Char) : Nat :=
  match pairs.find? (fun p => p.1 = k) with
  | some p => p.2
  | none => 0

/-- The total of all counts stored in a frequency-map enumeration. -/
def sumCounts (pairs : List (List Char × Nat)) : Nat :=
  (pairs.map Prod.snd).sum

/-- The write phase of `main`: the four `writeToFile` calls, as ordered
(destination, contents) pairs.  Only the Chinese-character and
English-word categories are ranked or written; `st.chineseWords` and
`st.englishPhrases` are not consulted. -/
def outputsOfState (st : ScanState) : List (String × List (List Char)) :=
  [ ( "deduplicated_chinese.txt", sortByFrequency st.chineseChar.freq),
    ( "duplicated_chinese.txt", st.chineseChar.list),
    ( "deduplicated_english.txt", sortByFrequency st.englishWord.freq),
    ( "duplicated_english.txt", st.englishWord.list) ]

/-- `main` from the scan loop onward: scan the lines the reader delivered;
if the scanner then reports a read error (`scanner.Err() != nil`), print
the error and return before any output is written, else emit the four
writes.  `readErr` is whether the scanner ended with an error. -/
def mainRun (lines : List (List Char)) (readErr : Bool) :
    List (String × List (List Char)) :=
  let st := scanLines lines
  if readErr then [] else outputsOfState st

/-- The I/O behaviour of one output destination: whether `os.Create`
succeeds and whether the buffered writes and `Flush` succeed. -/
structure Sink where
  createOk : Bool
  writeOk : Bool
deriving DecidableEq

/-- The outcome of one `writeToFile` call: the contents that reached the
destination (`none` if it was never created) and the error messages
printed. -/
structure WriteResult where
  written : Option (List (List Char))
  messages : List String
deriving DecidableEq

/-- The Go function `writeToFile`: if `os.Create` fails, print
`Error creating file <path>` and return without writing; otherwise write
all lines through a buffered writer and `Flush`.  The results of
`WriteString` and `Flush` are discarded by the code, so a write/flush
failure loses the buffered data without producing any message. -/
def writeToFile (sink : Sink) (filePath : String)
    (data : List (List Char)) : WriteResult :=
  if sink.createOk then
    WriteResult.mk (some (if sink.writeOk then data else [])) []
  else
    WriteResult.mk none [ "Error creating file " ++ filePath]

/-- The four sequential `writeToFile` calls of `main`: each destination is
attempted unconditionally, with the environment `sinks` giving the I/O
behaviour of each destination. -/
def writeAll (sinks : String → Sink)
    (outs : List (String × List (List Char))) :
    List (String × WriteResult) :=
  outs.map (fun o => (o.1, writeToFile (sinks o.1) o.1 o.2))

/-- The scenario input line
used by the test scenario (with an
apostrophe inside the third word and a trailing Han run). -/
def scenarioLine : List Char :=
  "Hello world, I".toList ++ [apostropheChar] ++
    "ll visit micro-video apps. 你好世界".toList

/-- The raw English-word tokens the scenario line should produce. -/
def scenarioWords : List (List Char) :=
  [ "Hello".toList, "world".toList,
    "I".toList ++ [apostropheChar] ++ "ll".toList,
    "visit".toList, "micro-video".toList, "apps".toList ]

/-- The lowercased English-word keys of the scenario line. -/
def scenarioWordKeys : List (List Char) :=
  [ "hello".toList, "world".toList,
    "i".toList ++ [apostropheChar] ++ "ll".toList,
    "visit".toList, "micro-video".toList, "apps".toList ]

/-! ## Aggregation lemmas -/

theorem sumCounts_bump (key : List Char) (f : List (List Char × Nat)) :
    sumCounts (bump key f) = sumCounts f + 1 := by
  induction f with
  | nil => simp [bump, sumCounts]
  | cons p rest ih =>
    obtain ⟨k, v⟩ := p
    by_cases h : k = key
    · simp [bump, h, sumCounts]
      omega
    · simp only [bump, if_neg h, sumCounts, List.map_cons, List.sum_cons]
      simp only [sumCounts] at ih
      omega

theorem processCategory_list_eq (norm : List Char → List Char)
    (tokens : List (List Char)) (s : CatState) :
    (processCategory norm tokens s).list = s.list ++ tokens := by
  induction tokens generalizing s with
  | nil => simp [processCategory]
  | cons t ts ih =>
    simp only [processCategory, List.foldl_cons] at ih ⊢
    rw [ih (CatState.mk (bump (norm t) s.freq) (s.list ++ [t]))]
    simp

theorem processCategory_freq_sum (norm : List Char → List Char)
    (tokens : List (List Char)) (s : CatState) :
    sumCounts (processCategory norm tokens s).freq =
      sumCounts s.freq + tokens.length := by
  induction tokens generalizing s with
  | nil => simp [processCategory]
  | cons t ts ih =>
    simp only [processCategory, List.foldl_cons] at ih ⊢
    rw [ih (CatState.mk (bump (norm t) s.freq) (s.list ++ [t]))]
    simp [sumCounts_bump]
    omega

theorem processCategory_append (norm : List Char → List Char)
    (ts1 ts2 : List (List Char)) (s : CatState) :
    processCategory norm (ts1 ++ ts2) s =
      processCategory norm ts2 (processCategory norm ts1 s) := by
  simp [processCategory, List.foldl_append]

theorem foldl_processLine_components (lines : List (List Char)) :
    ∀ (s : ScanState),
    (List.foldl processLine s lines).chineseChar =
      processCategory (normalizeKey Category.chineseChar)
        ((lines.map (findAll matchChineseChar)).flatten) s.chineseChar ∧
    (List.foldl processLine s lines).chineseWords =
      processCategory (normalizeKey Category.chineseWord)
        ((lines.map (findAll matchChineseWord)).flatten) s.chineseWords ∧
    (List.foldl processLine s lines).englishWord =
      processCategory (normalizeKey Category.englishWord)
        ((lines.map (findAll matchEnglishWord)).flatten) s.englishWord ∧
    (List.foldl processLine s lines).englishPhrases =
      processCategory (normalizeKey Category.englishPhrase)
        ((lines.map (findAll matchEnglishPhrase)).flatten) s.englishPhrases := by
  induction lines with
  | nil => intro s; simp [processCategory]
  | cons line rest ih =>
    intro s
    obtain ⟨h1, h2, h3, h4⟩ := ih (processLine s line)
    simp only [List.foldl_cons, List.map_cons, List.flatten_cons]
    rw [processCategory_append, processCategory_append, processCategory_append,
      processCategory_append]
    exact ⟨h1, h2, h3, h4⟩

/-- C2: for every input and every category, after the full scan the sum of
all counts in the frequency map of that category equals the length of the
duplicated list of that category: each matched token performs exactly one
increment (`bump`) and one append. -/
theorem scan_freq_sum_eq_list_length (lines : List (List Char)) :
    sumCounts (scanLines lines).chineseChar.freq =
      (scanLines lines).chineseChar.list.length ∧
    sumCounts (scanLines lines).chineseWords.freq =
      (scanLines lines).chineseWords.list.length ∧
    sumCounts (scanLines lines).englishWord.freq =
      (scanLines lines).englishWord.list.length ∧
    sumCounts (scanLines lines).englishPhrases.freq =
      (scanLines lines).englishPhrases.list.length := by
  obtain ⟨h1, h2, h3, h4⟩ := foldl_processLine_components lines initState
  unfold scanLines
  rw [h1, h2, h3, h4]
  simp only [processCategory_freq_sum, processCategory_list_eq]
  simp [initState, sumCounts]

/-- C5: key normalization is the pure function determined by the category
alone: the identity for both Chinese categories, plain lower-casing (with
no trimming, hence length-preserving) for English words, and
trim-then-lower-case for English phrases. -/
theorem normalizeKey_pure (raw : List Char) :
    normalizeKey Category.chineseChar raw = raw ∧
    normalizeKey Category.chineseWord raw = raw ∧
    normalizeKey Category.englishWord raw = toLowerStr raw ∧
    (normalizeKey Category.englishWord raw).length = raw.length ∧
    normalizeKey Category.englishPhrase raw = toLowerStr (trimSpace raw) :=
  ⟨rfl, rfl, rfl, by simp [normalizeKey, toLowerStr], rfl⟩

/-- C6: if the scanner stops with a read error, `main` returns before the
write phase, so no output destination is written at all. -/
theorem mainRun_read_error_writes_nothing (lines : List (List Char))
    (readErr : Bool) (h : readErr = true) : mainRun lines readErr = [] := by
  subst h
  rfl

/-- Witness for `mainRun_read_error_writes_nothing` at a concrete input. -/
theorem mainRun_read_error_writes_nothing_witness :
    (true = true) ∧ mainRun [ "cat cat dog".toList] true = [] :=
  ⟨rfl, mainRun_read_error_writes_nothing [ "cat cat dog".toList] true rfl⟩

/-! ## Ranking lemmas -/

theorem sortPairsDesc_perm (pairs : List (List Char × Nat)) :
    List.Perm (sortPairsDesc pairs) pairs :=
  List.perm_insertionSort freqGe pairs

theorem sortPairsDesc_sorted (pairs : List (List Char × Nat)) :
    List.Pairwise freqGe (sortPairsDesc pairs) := by
  haveI : IsTotal (List Char × Nat) freqGe := ⟨fun a b => Nat.le_total b.2 a.2⟩
  haveI : IsTrans (List Char × Nat) freqGe :=
    ⟨fun _ _ _ h1 h2 => Nat.le_trans h2 h1⟩
  exact List.sorted_insertionSort freqGe pairs

theorem lookupCount_eq_of_mem (pairs : List (List Char × Nat))
    (p : List Char × Nat) (hnd : (pairs.map Prod.fst).Nodup)
    (hp : p ∈ pairs) : lookupCount pairs p.1 = p.2 := by
  induction pairs with
  | nil => simp at hp
  | cons q rest ih =>
    rw [List.map_cons, List.nodup_cons] at hnd
    rcases List.mem_cons.mp hp with h | h
    · subst h
      simp [lookupCount, List.find?]
    · have hq : ¬(q.1 = p.1) := by
        intro he
        exact hnd.1 (by rw [he]; exact List.mem_map_of_mem Prod.fst h)
      simp only [lookupCount]
      rw [List.find?_cons_of_neg _ (by simpa using hq)]
      exact ih hnd.2 h

theorem chain'_lookup_of_mem (pairs : List (List Char × Nat)) :
    ∀ (l : List (List Char × Nat)),
    (∀ p ∈ l, lookupCount pairs p.1 = p.2) →
    List.Chain' (fun a b => b.2 ≤ a.2) l →
    List.Chain' (fun a b => lookupCount pairs b ≤ lookupCount pairs a)
      (l.map Prod.fst) := by
  intro l
  induction l with
  | nil => intro _ _; simp
  | cons p rest ih =>
    intro hmem hch
    cases rest with
    | nil => simp
    | cons q rest2 =>
      rw [List.map_cons, List.map_cons, List.chain'_cons]
      rw [List.chain'_cons] at hch
      refine ⟨?_, ?_⟩
      · rw [hmem p (by simp), hmem q (by simp)]
        exact hch.1
      · have h2 := ih (fun r hr => hmem r (List.mem_cons_of_mem p hr)) hch.2
        rw [List.map_cons] at h2
        exact h2

/-- C1: `sortByFrequency` applied to any enumeration of a frequency table
with distinct keys returns exactly the distinct keys of the table - a
permutation of them with no duplicates - ordered so that at every adjacent
pair the corresponding count is non-increasing; on the empty table it
returns the empty list. -/
theorem sortByFrequency_rank_correct (pairs : List (List Char × Nat))
    (hnd : (pairs.map Prod.fst).Nodup) :
    List.Perm (sortByFrequency pairs) (pairs.map Prod.fst) ∧
    (sortByFrequency pairs).Nodup ∧
    List.Chain' (fun a b => lookupCount pairs b ≤ lookupCount pairs a)
      (sortByFrequency pairs) ∧
    sortByFrequency [] = [] := by
  have hperm : List.Perm (sortPairsDesc pairs) pairs := sortPairsDesc_perm pairs
  have hmapperm : List.Perm (sortByFrequency pairs) (pairs.map Prod.fst) :=
    hperm.map Prod.fst
  refine ⟨hmapperm, hmapperm.nodup_iff.mpr hnd, ?_, rfl⟩
  have hchain : List.Chain' (fun a b => b.2 ≤ a.2) (sortPairsDesc pairs) :=
    (sortPairsDesc_sorted pairs).chain'
  exact chain'_lookup_of_mem pairs (sortPairsDesc pairs)
    (fun p hp => lookupCount_eq_of_mem pairs p hnd (hperm.mem_iff.mp hp))
    hchain

/-- Witness for `sortByFrequency_rank_correct` at the table with entries
(cat, 2), (dog, 1). -/
theorem sortByFrequency_rank_correct_witness :
    (([( "cat".toList, 2), ( "dog".toList, 1)].map Prod.fst).Nodup) ∧
    (List.Perm (sortByFrequency [( "cat".toList, 2), ( "dog".toList, 1)])
      ([( "cat".toList, 2), ( "dog".toList, 1)].map Prod.fst) ∧
    (sortByFrequency [( "cat".toList, 2), ( "dog".toList, 1)]).Nodup ∧
    List.Chain'
      (fun a b => lookupCount [( "cat".toList, 2), ( "dog".toList, 1)] b ≤
        lookupCount [( "cat".toList, 2), ( "dog".toList, 1)] a)
      (sortByFrequency [( "cat".toList, 2), ( "dog".toList, 1)]) ∧
    sortByFrequency [] = []) :=
  ⟨by decide, sortByFrequency_rank_correct _ (by decide)⟩

/-- C4 is refuted: the ordering returned by `sortByFrequency` depends on
the order in which the Go map enumerated its entries, which is unspecified
and randomized between runs; two enumerations of the same table (two keys
with equal counts) yield different orderings. -/
theorem sortByFrequency_not_deterministic_counterexample :
    List.Perm [( "a".toList, 1), ( "b".toList, 1)]
      [( "b".toList, 1), ( "a".toList, 1)] ∧
    ([( "a".toList, 1), ( "b".toList, 1)].map Prod.fst).Nodup ∧
    ([( "b".toList, 1), ( "a".toList, 1)].map Prod.fst).Nodup ∧
    sortByFrequency [( "a".toList, 1), ( "b".toList, 1)] ≠
      sortByFrequency [( "b".toList, 1), ( "a".toList, 1)] :=
  ⟨by decide, by decide, by decide, by decide⟩

theorem eq_of_perm_of_strictSorted :
    ∀ (l1 l2 : List (List Char × Nat)), List.Perm l1 l2 →
    List.Pairwise (fun a b => b.2 < a.2) l1 →
    List.Pairwise (fun a b => b.2 < a.2) l2 → l1 = l2 := by
  intro l1
  induction l1 with
  | nil =>
    intro l2 hperm _ _
    exact (List.perm_nil.mp hperm.symm).symm
  | cons p t1 ih =>
    intro l2 hperm h1 h2
    cases l2 with
    | nil => exact absurd (List.perm_nil.mp hperm) (by simp)
    | cons q t2 =>
      have hpq : p = q := by
        by_contra hne
        have hpt2 : p ∈ t2 := by
          rcases List.mem_cons.mp (hperm.mem_iff.mp (List.mem_cons_self p t1))
            with h | h
          · exact absurd h hne
          · exact h
        have hqt1 : q ∈ t1 := by
          rcases List.mem_cons.mp (hperm.symm.mem_iff.mp
            (List.mem_cons_self q t2)) with h | h
          · exact absurd h.symm hne
          · exact h
        have hlt1 : q.2 < p.2 := (List.pairwise_cons.mp h1).1 q hqt1
        have hlt2 : p.2 < q.2 := (List.pairwise_cons.mp h2).1 p hpt2
        omega
      subst hpq
      rw [ih t2 hperm.cons_inv (List.pairwise_cons.mp h1).2
        (List.pairwise_cons.mp h2).2]

theorem sortPairsDesc_strict (pairs : List (List Char × Nat))
    (hc : (pairs.map Prod.snd).Nodup) :
    List.Pairwise (fun a b => b.2 < a.2) (sortPairsDesc pairs) := by
  have hsorted : List.Pairwise freqGe (sortPairsDesc pairs) :=
    sortPairsDesc_sorted pairs
  have hcs : ((sortPairsDesc pairs).map Prod.snd).Nodup :=
    (List.Perm.nodup_iff ((sortPairsDesc_perm pairs).map Prod.snd)).mpr hc
  have hne : List.Pairwise (fun a b : List Char × Nat => a.2 ≠ b.2)
      (sortPairsDesc pairs) := List.pairwise_map.mp hcs
  exact (hsorted.and hne).imp
    (fun h => Nat.lt_of_le_of_ne h.1 (fun he => h.2 he.symm))

/-- C4 (amended): a second call of `sortByFrequency` on the same unchanged
table yields an identical ordering whenever all counts in the table are
pairwise distinct (the two calls may enumerate the map in any two orders);
among keys with equal counts the ordering depends on the unspecified,
randomized Go map enumeration order and is not guaranteed identical, as
the counterexample shows. -/
theorem sortByFrequency_deterministic_of_distinct_counts
    (pairs1 pairs2 : List (List Char × Nat))
    (hperm : List.Perm pairs1 pairs2)
    (hc : (pairs1.map Prod.snd).Nodup) :
    sortByFrequency pairs1 = sortByFrequency pairs2 := by
  have hc2 : (pairs2.map Prod.snd).Nodup :=
    (List.Perm.nodup_iff (hperm.map Prod.snd)).mp hc
  have hp : List.Perm (sortPairsDesc pairs1) (sortPairsDesc pairs2) :=
    ((sortPairsDesc_perm pairs1).trans hperm).trans
      (sortPairsDesc_perm pairs2).symm
  have heq := eq_of_perm_of_strictSorted _ _ hp
    (sortPairsDesc_strict pairs1 hc) (sortPairsDesc_strict pairs2 hc2)
  unfold sortByFrequency
  rw [heq]

/-- Witness for `sortByFrequency_deterministic_of_distinct_counts`: the
table with entries (a, 1), (b, 2) enumerated in both orders. -/
theorem sortByFrequency_deterministic_of_distinct_counts_witness :
    List.Perm [( "a".toList, 1), ( "b".toList, 2)]
      [( "b".toList, 2), ( "a".toList, 1)] ∧
    ([( "a".toList, 1), ( "b".toList, 2)].map Prod.snd).Nodup ∧
    sortByFrequency [( "a".toList, 1), ( "b".toList, 2)] =
      sortByFrequency [( "b".toList, 2), ( "a".toList, 1)] :=
  ⟨by decide, by decide,
    sortByFrequency_deterministic_of_distinct_counts _ _ (by decide) (by decide)⟩

/-! ## Sink lemmas -/

/-- C7: every destination is attempted in order no matter which sinks
fail, the outcome of the destination at index `i` depends only on its own
sink, and when that sink can be created and written the full contents
reach it - a failure of any other sink never aborts this write. -/
theorem writeAll_sink_failure_independent (sinks : String → Sink)
    (outs : List (String × List (List Char))) (i : Nat)
    (hi : i < outs.length)
    (hc : (sinks (outs[i]).1).createOk = true)
    (hw : (sinks (outs[i]).1).writeOk = true) :
    (writeAll sinks outs).map Prod.fst = outs.map Prod.fst ∧
    (writeAll sinks outs)[i]? =
      some ((outs[i]).1, WriteResult.mk (some ((outs[i]).2)) []) := by
  constructor
  · simp [writeAll]
  · rw [writeAll, List.getElem?_map, List.getElem?_eq_getElem hi]
    simp [writeToFile, hc, hw]

/-- Witness for `writeAll_sink_failure_independent`: with the sink of
`duplicated_chinese.txt` failing to create, the third destination
(`deduplicated_english.txt`, index 2) is still attempted and written. -/
theorem writeAll_sink_failure_independent_witness :
    2 < (outputsOfState (scanLines [ "cat".toList])).length ∧
    (((fun n => if n = "duplicated_chinese.txt" then Sink.mk false true
        else Sink.mk true true)
      (((outputsOfState (scanLines [ "cat".toList]))[2]).1)).createOk = true) ∧
    (((fun n => if n = "duplicated_chinese.txt" then Sink.mk false true
        else Sink.mk true true)
      (((outputsOfState (scanLines [ "cat".toList]))[2]).1)).writeOk = true) ∧
    ((writeAll
        (fun n => if n = "duplicated_chinese.txt" then Sink.mk false true
          else Sink.mk true true)
        (outputsOfState (scanLines [ "cat".toList]))).map Prod.fst =
      (outputsOfState (scanLines [ "cat".toList])).map Prod.fst ∧
    (writeAll
        (fun n => if n = "duplicated_chinese.txt" then Sink.mk false true
          else Sink.mk true true)
        (outputsOfState (scanLines [ "cat".toList])))[2]? =
      some (((outputsOfState (scanLines [ "cat".toList]))[2]).1,
        WriteResult.mk
          (some (((outputsOfState (scanLines [ "cat".toList]))[2]).2)) [])) :=
  ⟨by decide, by decide, by decide,
    writeAll_sink_failure_independent _ _ 2 (by decide) (by decide) (by decide)⟩

/-- C8 is refuted: a failing buffered write/flush (the destination was
created, but `writeOk = false` models a failed `WriteString`/`Flush`) is
not surfaced - `writeToFile` discards the results of `WriteString` and
`Flush`, prints nothing, and the data is lost silently. -/
theorem writeToFile_swallows_write_failure_counterexample :
    (Sink.mk true false).writeOk = false ∧
    (writeToFile (Sink.mk true false) "deduplicated_chinese.txt"
      [ "cat".toList]).messages = [] ∧
    (writeToFile (Sink.mk true false) "deduplicated_chinese.txt"
      [ "cat".toList]).written ≠ some [ "cat".toList] :=
  ⟨rfl, rfl, by decide⟩

/-- C8 (amended): only a failure to create the destination is surfaced,
as the descriptive message naming the file; when creation succeeds, no
message is ever produced, so write/flush failures are silently
swallowed. -/
theorem writeToFile_surfaces_only_create_failure (sink : Sink)
    (filePath : String) (data : List (List Char)) :
    (sink.createOk = false →
      (writeToFile sink filePath data).messages =
        [ "Error creating file " ++ filePath] ∧
      (writeToFile sink filePath data).written = none) ∧
    (sink.createOk = true → (writeToFile sink filePath data).messages = []) := by
  constructor
  · intro h
    simp [writeToFile, h]
  · intro h
    simp [writeToFile, h]

/-- Witness for `writeToFile_surfaces_only_create_failure` at a sink whose
creation fails. -/
theorem writeToFile_surfaces_only_create_failure_witness :
    (Sink.mk false true).createOk = false ∧
    (writeToFile (Sink.mk false true) "out.txt" [ "cat".toList]).messages =
      [ "Error creating file " ++ "out.txt"] :=
  ⟨rfl,
    ((writeToFile_surfaces_only_create_failure (Sink.mk false true) "out.txt"
      [ "cat".toList]).1 rfl).1⟩

/-- C9: the write phase ranks and writes only the Chinese-character and
English-word categories (their deduplicated and duplicated lists, in the
four fixed destinations); it reads nothing from the Chinese-word and
English-phrase accumulators - any two states agreeing on the two written
categories produce identical outputs - even though the scan has fully
built the duplicated lists (and frequency maps) of the two unwritten
categories. -/
theorem outputs_rank_write_only_two_categories (lines : List (List Char))
    (s1 s2 : ScanState)
    (hcc : s1.chineseChar = s2.chineseChar)
    (hew : s1.englishWord = s2.englishWord) :
    ((outputsOfState (scanLines lines)).map Prod.fst =
      [ "deduplicated_chinese.txt", "duplicated_chinese.txt",
        "deduplicated_english.txt", "duplicated_english.txt"]) ∧
    outputsOfState s1 = outputsOfState s2 ∧
    (scanLines lines).chineseWords.list =
      (lines.map (findAll matchChineseWord)).flatten ∧
    (scanLines lines).englishPhrases.list =
      (lines.map (findAll matchEnglishPhrase)).flatten := by
  obtain ⟨_, h2, _, h4⟩ := foldl_processLine_components lines initState
  refine ⟨by simp [outputsOfState], ?_, ?_, ?_⟩
  · simp [outputsOfState, hcc, hew]
  · unfold scanLines
    rw [h2, processCategory_list_eq]
    rfl
  · unfold scanLines
    rw [h4, processCategory_list_eq]
    rfl

/-- Witness for `outputs_rank_write_only_two_categories` at the scenario
line and a pair of equal states. -/
theorem outputs_rank_write_only_two_categories_witness :
    (initState.chineseChar = initState.chineseChar) ∧
    (initState.englishWord = initState.englishWord) ∧
    (((outputsOfState (scanLines [ "ab 你".toList])).map Prod.fst =
      [ "deduplicated_chinese.txt", "duplicated_chinese.txt",
        "deduplicated_english.txt", "duplicated_english.txt"]) ∧
    outputsOfState initState = outputsOfState initState ∧
    (scanLines [ "ab 你".toList]).chineseWords.list =
      ([ "ab 你".toList].map (findAll matchChineseWord)).flatten ∧
    (scanLines [ "ab 你".toList]).englishPhrases.list =
      ([ "ab 你".toList].map (findAll matchEnglishPhrase)).flatten) :=
  ⟨rfl, rfl,
    outputs_rank_write_only_two_categories [ "ab 你".toList]
      initState initState rfl rfl⟩

/-! ## Phrase-token shape lemmas -/

theorem tryFrom_eq_some (f : Nat → Option Nat) :
    ∀ (n r : Nat), tryFrom f n = some r → ∃ k, k ≤ n ∧ f k = some r := by
  intro n
  induction n with
  | zero => intro r h; exact ⟨0, Nat.le_refl 0, h⟩
  | succ m ih =>
    intro r h
    unfold tryFrom at h
    cases hf : f (m + 1) with
    | some v =>
      rw [hf] at h
      exact ⟨m + 1, Nat.le_refl _, by rw [hf]; exact h⟩
    | none =>
      rw [hf] at h
      obtain ⟨k, hk, hfk⟩ := ih r h
      exact ⟨k, Nat.le_succ_of_le hk, hfk⟩

theorem matchEnglishPhrase_eq_some (prev : Option Char) (l : List Char)
    (n : Nat) (h : matchEnglishPhrase prev l = some n) :
    ∃ c0 rest j c2 rest2, l = c0 :: rest ∧ rest.drop j = c2 :: rest2 ∧
      n = j + 2 ∧ isAlnumChar c0 = true ∧ isAlnumChar c2 = true := by
  cases l with
  | nil => simp [matchEnglishPhrase] at h
  | cons c0 rest =>
    rw [matchEnglishPhrase] at h
    by_cases hg : (isAlnumChar c0 && !wordOpt prev) = true
    · rw [if_pos hg] at h
      obtain ⟨k, _, hfk⟩ := tryFrom_eq_some _ _ _ h
      cases hd : rest.drop k with
      | nil => rw [hd] at hfk; simp at hfk
      | cons c2 rest2 =>
        rw [hd] at hfk
        have hfk2 : (if (isAlnumChar c2 && !wordOpt rest2.head?) = true
            then some (k + 2) else (none : Option Nat)) = some n := hfk
        by_cases hg2 : (isAlnumChar c2 && !wordOpt rest2.head?) = true
        · rw [if_pos hg2] at hfk2
          exact ⟨c0, rest, k, c2, rest2, rfl, hd,
            (Option.some.inj hfk2).symm,
            by simp only [Bool.and_eq_true] at hg; exact hg.1,
            by simp only [Bool.and_eq_true] at hg2; exact hg2.1⟩
        · rw [if_neg hg2] at hfk2; simp at hfk2
    · rw [if_neg hg] at h; simp at h

theorem getLast?_take_of_drop_cons :
    ∀ (rest : List Char) (j : Nat) (c2 : Char) (rest2 : List Char),
    rest.drop j = c2 :: rest2 → (rest.take (j + 1)).getLast? = some c2 := by
  intro rest
  induction rest with
  | nil => intro j c2 rest2 h; simp at h
  | cons a as ih =>
    intro j c2 rest2 h
    cases j with
    | zero =>
      simp only [List.drop_zero] at h
      rw [h]
      rfl
    | succ m =>
      have h2 : as.drop m = c2 :: rest2 := h
      have hlast := ih m c2 rest2 h2
      have hne : as.take (m + 1) ≠ [] := by
        intro he
        rw [he] at hlast
        simp at hlast
      rw [List.take_succ_cons]
      cases hx : as.take (m + 1) with
      | nil => exact absurd hx hne
      | cons x xs =>
        rw [List.getLast?_cons_cons]
        rw [hx] at hlast
        exact hlast

theorem isAlnumChar_not_isGoSpace (c : Char) (h : isAlnumChar c = true) :
    isGoSpace c = false := by
  by_contra hs
  rw [Bool.not_eq_false] at hs
  simp only [isGoSpace, Bool.or_eq_true, beq_iff_eq, or_assoc] at hs
  rcases hs with rfl | rfl | rfl | rfl | rfl | rfl | rfl | rfl | rfl | rfl |
    rfl | rfl | rfl | rfl | rfl | rfl | rfl | rfl | rfl | rfl | rfl | rfl |
    rfl | rfl | rfl <;>
    exact absurd h (by decide)

theorem dropWhile_eq_self_of_head (p : Char → Bool) (t : List Char)
    (h : t.head?.all (fun c => !p c) = true) : t.dropWhile p = t := by
  cases t with
  | nil => rfl
  | cons a as =>
    simp only [List.head?_cons, Option.all_some, Bool.not_eq_true'] at h
    simp [List.dropWhile, h]

theorem trimSpace_eq_self (t : List Char)
    (h1 : t.head?.all (fun c => !isGoSpace c) = true)
    (h2 : t.getLast?.all (fun c => !isGoSpace c) = true) :
    trimSpace t = t := by
  unfold trimSpace
  rw [dropWhile_eq_self_of_head _ _ h1]
  rw [dropWhile_eq_self_of_head _ _ (by rw [List.head?_reverse]; exact h2)]
  exact List.reverse_reverse t

theorem mem_findAllAux (m : Option Char → List Char → Option Nat) :
    ∀ (fuel : Nat) (prev : Option Char) (l t : List Char),
    t ∈ findAllAux m fuel prev l →
    ∃ p2 l2 k, m p2 l2 = some k ∧ t = l2.take k := by
  intro fuel
  induction fuel with
  | zero => intro _ _ _ h; simp [findAllAux] at h
  | succ f ih =>
    intro prev l t h
    cases l with
    | nil => simp [findAllAux] at h
    | cons c rest =>
      rw [findAllAux] at h
      cases hm : m prev (c :: rest) with
      | some k =>
        rw [hm] at h
        rcases List.mem_cons.mp h with h1 | h1
        · exact ⟨prev, c :: rest, k, hm, h1⟩
        · exact ih _ _ _ h1
      | none =>
        rw [hm] at h
        exact ih _ _ _ h

/-- C10: every token the English-phrase pattern matches begins and ends
with an alphanumeric character and has at least two characters, so the
whitespace-trim step of phrase normalization is the identity on it and the
normalized phrase key equals the plain lowercase of the raw token. -/
theorem englishPhrase_token_shape (l t : List Char)
    (ht : t ∈ findAll matchEnglishPhrase l) :
    2 ≤ t.length ∧
    t.head?.all isAlnumChar = true ∧
    t.getLast?.all isAlnumChar = true ∧
    trimSpace t = t ∧
    normalizeKey Category.englishPhrase t = toLowerStr t := by
  obtain ⟨p2, l2, k, hm, hteq⟩ := mem_findAllAux _ _ _ _ _ ht
  obtain ⟨c0, rest, j, c2, rest2, hl2, hdrop, hk, hc0, hc2⟩ :=
    matchEnglishPhrase_eq_some _ _ _ hm
  subst hl2
  subst hk
  subst hteq
  rw [List.take_succ_cons]
  have hlast : (rest.take (j + 1)).getLast? = some c2 :=
    getLast?_take_of_drop_cons rest j c2 rest2 hdrop
  have hne : rest.take (j + 1) ≠ [] := by
    intro he
    rw [he] at hlast
    simp at hlast
  have hlast2 : (c0 :: rest.take (j + 1)).getLast? = some c2 := by
    cases hx : rest.take (j + 1) with
    | nil => exact absurd hx hne
    | cons x xs =>
      rw [List.getLast?_cons_cons]
      rw [hx] at hlast
      exact hlast
  have hlen : 2 ≤ (c0 :: rest.take (j + 1)).length := by
    simp only [List.length_cons]
    have : 0 < (rest.take (j + 1)).length := List.length_pos.mpr hne
    omega
  have hhead : (c0 :: rest.take (j + 1)).head?.all isAlnumChar = true := by
    simp [hc0]
  have hlastAll : (c0 :: rest.take (j + 1)).getLast?.all isAlnumChar = true := by
    rw [hlast2]
    simp [hc2]
  have htrim : trimSpace (c0 :: rest.take (j + 1)) = c0 :: rest.take (j + 1) := by
    apply trimSpace_eq_self
    · simp [isAlnumChar_not_isGoSpace c0 hc0]
    · rw [hlast2]
      simp [isAlnumChar_not_isGoSpace c2 hc2]
  refine ⟨hlen, hhead, hlastAll, htrim, ?_⟩
  show toLowerStr (trimSpace (c0 :: rest.take (j + 1))) = _
  rw [htrim]

/-- Witness for `englishPhrase_token_shape` on the line `to-do list`. -/
theorem englishPhrase_token_shape_witness :
    ( "to-do list".toList ∈ findAll matchEnglishPhrase "to-do list".toList) ∧
    (2 ≤ "to-do list".toList.length ∧
    "to-do list".toList.head?.all isAlnumChar = true ∧
    "to-do list".toList.getLast?.all isAlnumChar = true ∧
    trimSpace "to-do list".toList = "to-do list".toList ∧
    normalizeKey Category.englishPhrase "to-do list".toList =
      toLowerStr "to-do list".toList) :=
  ⟨by decide, englishPhrase_token_shape "to-do list".toList _ (by decide)⟩

/-! ## Scenario -/

/-- C3: on the scenario line the tokenizer produces the Chinese-character
tokens 你, 好, 世, 界, the single Chinese-word token 你好世界, and the six
raw English-word tokens (Hello, world, the apostrophe contraction, visit,
micro-video, apps), whose normalized keys are the plain lowercase of each
raw token. -/
theorem scenario_tokens_correct :
    findAll matchChineseChar scenarioLine =
      [ "你".toList, "好".toList, "世".toList, "界".toList] ∧
    findAll matchChineseWord scenarioLine = [ "你好世界".toList] ∧
    findAll matchEnglishWord scenarioLine = scenarioWords ∧
    scenarioWords.map (normalizeKey Category.englishWord) = scenarioWordKeys ∧
    scenarioWordKeys = scenarioWords.map toLowerStr :=
  ⟨by decide, by decide, by decide, by decide, by decide⟩
